import Mathlib

/-!
Verification of the conflict-detection core of the smart-doc-checker
repository: sentence segmentation, heuristic candidate-pair filtering,
adjudication, and batch aggregation (`backend/nli.py` and the `/analyze`
route of `backend/app.py`), embedded shallowly over `List Char`.
-/

namespace SmartDocChecker

/-- The characters that the Python method `str.strip` and the regex class
`\s` treat as whitespace (ASCII range). -/
def pyIsSpace (c : Char) : Bool :=
  c = ' ' || c = '\t' || c = '\n' || c = '\r' || c = '\x0b' || c = '\x0c'

/-- Python `text.strip()` on a list of characters. -/
def pyStrip (l : List Char) : List Char :=
  ((l.dropWhile pyIsSpace).reverse.dropWhile pyIsSpace).reverse

/-- Sentence-terminal punctuation recognised by the lookbehind `(?<=[.!?])`. -/
def isTerm (c : Char) : Bool :=
  c = '.' || c = '!' || c = '?'

/-- Scanner state for `re.split` with pattern `(?<=[.!?])\s+`: either scanning normally
(recording whether the previous character is one of `.`, `!`, `?`), or inside a
separator whitespace run started by whitespace after terminal punctuation. -/
inductive ScanMode where
  | norm (prevPunct : Bool) : ScanMode
  | sep : ScanMode
deriving DecidableEq

/-- One left-to-right pass of `re.split` with pattern `(?<=[.!?])\s+`: whitespace right
after terminal punctuation ends the current sentence and opens a separator run;
the run greedily consumes further whitespace; any other character extends the
current sentence. -/
def splitSentences (m : ScanMode) (l : List Char) : List (List Char) :=
  match l with
  | [] => [[]]
  | c :: rest =>
    match m with
    | .sep =>
      if pyIsSpace c then splitSentences .sep rest
      else (splitSentences (.norm (isTerm c)) rest).modifyHead (c :: ·)
    | .norm pp =>
      if pyIsSpace c && pp then [] :: splitSentences .sep rest
      else (splitSentences (.norm (isTerm c)) rest).modifyHead (c :: ·)

/-- The function `extract_sentences` from `backend/nli.py`, that is, the
pattern `(?<=[.!?])\s+` split applied to the stripped text. -/
def extract_sentences (t : List Char) : List (List Char) :=
  splitSentences (.norm false) (pyStrip t)

/-- The characters of a string literal. -/
def chars (s : String) : List Char := s.data

/-- Word characters of the regex class `\w` (ASCII): letters, digits,
underscore. -/
def isWordChar (c : Char) : Bool :=
  c.isAlpha || c.isDigit || c = '_'

/-- Scanner state for `re.findall` with pattern `\b\d+%?\b`. -/
inductive NumScan where
  /-- Not inside a digit run; records whether the previous character is a word
  character (which blocks the leading `\b`). -/
  | outside (prevWord : Bool) : NumScan
  /-- Inside a digit run; `ds` holds the digits read so far, reversed. -/
  | run (ds : List Char) : NumScan
  /-- Digit run `ds` (reversed) directly followed by `%`; whether the `%` joins
  the token depends on the next character (the trailing `\b`). -/
  | afterPct (ds : List Char) : NumScan
deriving DecidableEq

/-- Left-to-right scan of `re.findall` with pattern `\b\d+%?\b`: a maximal digit run
not preceded by a word character matches; a trailing `%` is included exactly
when the character after it is a word character (otherwise the trailing `\b`
sits after the last digit). -/
def findNumsGo (m : NumScan) (l : List Char) : List (List Char) :=
  match l with
  | [] =>
    match m with
    | .outside _ => []
    | .run ds => [ds.reverse]
    | .afterPct ds => [ds.reverse]
  | c :: rest =>
    match m with
    | .outside pw =>
      if c.isDigit && !pw then findNumsGo (.run [c]) rest
      else findNumsGo (.outside (isWordChar c)) rest
    | .run ds =>
      if c.isDigit then findNumsGo (.run (c :: ds)) rest
      else if c = '%' then findNumsGo (.afterPct ds) rest
      else if isWordChar c then findNumsGo (.outside true) rest
      else ds.reverse :: findNumsGo (.outside false) rest
    | .afterPct ds =>
      if c.isDigit then (ds.reverse ++ ['%']) :: findNumsGo (.run [c]) rest
      else if isWordChar c then (ds.reverse ++ ['%']) :: findNumsGo (.outside true) rest
      else ds.reverse :: findNumsGo (.outside false) rest

/-- The standalone numeric tokens of `s`, as `re.findall` of `\b\d+%?\b`. -/
def findNums (s : List Char) : List (List Char) :=
  findNumsGo (.outside false) s

/-- Python `s.split()`: split on whitespace runs, dropping empty pieces; `acc`
holds the current word, reversed. -/
def wordsGo (acc : List Char) (l : List Char) : List (List Char) :=
  match l with
  | [] => if acc.isEmpty then [] else [acc.reverse]
  | c :: rest =>
    if pyIsSpace c then
      if acc.isEmpty then wordsGo [] rest else acc.reverse :: wordsGo [] rest
    else wordsGo (c :: acc) rest

/-- Python `s.split()` on a list of characters. -/
def pyWords (l : List Char) : List (List Char) :=
  wordsGo [] l

/-- Python `s.lower()`, character by character (ASCII). -/
def lowerChars (s : List Char) : List Char :=
  s.map Char.toLower

/-- The test whether any numeric token of `sa` is a substring of `sb`. -/
def numTokenMatch (sa sb : List Char) : Bool :=
  (findNums sa).any (fun tok => decide (tok <:+: sb))

/-- The size of the intersection of the lowercase word sets of `sa` and `sb`. -/
def sharedWordCount (sa sb : List Char) : Nat :=
  ((pyWords (lowerChars sa)).dedup.filter
    (fun w => decide (w ∈ pyWords (lowerChars sb)))).length

/-- The retention test of `heuristic_pairs` in `backend/nli.py`. -/
def pairCond (sa sb : List Char) : Bool :=
  numTokenMatch sa sb || decide (3 < sharedWordCount sa sb)

/-- The inner loop of `heuristic_pairs`: one `sa` against every `sb`. -/
def pairsRow (sa : List Char) (B : List (List Char)) : List (List Char × List Char) :=
  match B with
  | [] => []
  | sb :: B' => if pairCond sa sb then (sa, sb) :: pairsRow sa B' else pairsRow sa B'

/-- The full nested loop of `heuristic_pairs`, before the `[:50]` cap. -/
def allCandidatePairs (A B : List (List Char)) : List (List Char × List Char) :=
  match A with
  | [] => []
  | sa :: A' => pairsRow sa B ++ allCandidatePairs A' B

/-- The function `heuristic_pairs` from `backend/nli.py`: the nested-loop
candidate list, capped to its first 50 elements. -/
def heuristic_pairs (A B : List (List Char)) : List (List Char × List Char) :=
  (allCandidatePairs A B).take 50

/-- The conflict dict built in `detect_conflicts` (`backend/nli.py`), with the
fields of the `Conflict` model in `backend/models.py`. -/
structure ConflictRecord where
  doc_a : List Char
  span_a : List Char
  doc_b : List Char
  span_b : List Char
  type : List Char
  explanation : List Char
deriving DecidableEq

/-- The characters of `"contradiction"`. -/
def contrWord : List Char := chars "contradiction"

/-- The verdict test applied to the raw adjudicator response in
`detect_conflicts`: the quoted word `contradiction` occurs in the response, or
the bare word occurs in its lowercasing. -/
def hasContradiction (out : List Char) : Bool :=
  decide (('"' :: contrWord ++ ['"']) <:+: out) || decide (contrWord <:+: lowerChars out)

/-- The record appended for a retained pair in `detect_conflicts`. -/
def mkRecord (na sa nb sb out : List Char) : ConflictRecord :=
  { doc_a := na, span_a := sa, doc_b := nb, span_b := sb,
    type := contrWord, explanation := out }

/-- The adjudication loop of `detect_conflicts`: each candidate pair is sent to
the adjudicator in order; an exception from the call propagates (there is no
`try`/`except` in the loop), aborting the whole run. -/
def adjudicateLoop {ε : Type} (adj : List Char → List Char → Except ε (List Char))
    (na nb : List Char) (ps : List (List Char × List Char)) :
    Except ε (List ConflictRecord) :=
  match ps with
  | [] => .ok []
  | (sa, sb) :: rest =>
    match adj sa sb with
    | .error e => .error e
    | .ok out =>
      match adjudicateLoop adj na nb rest with
      | .error e => .error e
      | .ok cs => .ok (if hasContradiction out then mkRecord na sa nb sb out :: cs else cs)

/-- The function `detect_conflicts` from `backend/nli.py`, with the external
model call abstracted as a fallible adjudicator `adj`. -/
def detect_conflicts {ε : Type} (adj : List Char → List Char → Except ε (List Char))
    (na ta nb tb : List Char) : Except ε (List ConflictRecord) :=
  adjudicateLoop adj na nb (heuristic_pairs (extract_sentences ta) (extract_sentences tb))

/-- The records that `detect_conflicts` keeps when the adjudicator always
answers, in candidate-pair order. -/
def pureDetect (adjF : List Char → List Char → List Char) (na ta nb tb : List Char) :
    List ConflictRecord :=
  (heuristic_pairs (extract_sentences ta) (extract_sentences tb)).filterMap
    (fun p => if hasContradiction (adjF p.1 p.2) then
        some (mkRecord na p.1 nb p.2 (adjF p.1 p.2)) else none)

/-- Errors that can escape the `/analyze` route in `backend/app.py`:
the `HTTPException` for fewer than two documents, or an uncaught exception
from the adjudication call. -/
inductive AnalyzeError (ε : Type) where
  | tooFewDocs : AnalyzeError ε
  | adjFailure : ε → AnalyzeError ε
deriving DecidableEq

/-- The inner `for j in range(i + 1, len(texts))` loop of `analyze`:
document `(na, ta)` against each later document. -/
def innerPairLoop {ε : Type} (adj : List Char → List Char → Except ε (List Char))
    (na ta : List Char) (texts : List (List Char × List Char)) :
    Except ε (List ConflictRecord) :=
  match texts with
  | [] => .ok []
  | (nb, tb) :: rest =>
    match detect_conflicts adj na ta nb tb with
    | .error e => .error e
    | .ok cs =>
      match innerPairLoop adj na ta rest with
      | .error e => .error e
      | .ok cs' => .ok (cs ++ cs')

/-- The outer `for i in range(len(texts))` loop of `analyze`. -/
def outerPairLoop {ε : Type} (adj : List Char → List Char → Except ε (List Char))
    (texts : List (List Char × List Char)) : Except ε (List ConflictRecord) :=
  match texts with
  | [] => .ok []
  | (na, ta) :: rest =>
    match innerPairLoop adj na ta rest with
    | .error e => .error e
    | .ok cs =>
      match outerPairLoop adj rest with
      | .error e => .error e
      | .ok cs' => .ok (cs ++ cs')

/-- The `/analyze` route of `backend/app.py`, from the point where the texts of
the batch are loaded: reject fewer than two documents, otherwise run contradiction
detection over every document pair `(i, j)` with `i < j`. -/
def analyze {ε : Type} (adj : List Char → List Char → Except ε (List Char))
    (texts : List (List Char × List Char)) :
    Except (AnalyzeError ε) (List ConflictRecord) :=
  if texts.length < 2 then .error .tooFewDocs
  else
    match outerPairLoop adj texts with
    | .error e => .error (.adjFailure e)
    | .ok cs => .ok cs

/-- The document index pairs `(i, j)` with `i < j < n`, in lexicographic
order. -/
def docPairs (n : Nat) : List (Nat × Nat) :=
  (List.range n).flatMap
    (fun i => ((List.range n).filter (fun j => decide (i < j))).map (fun j => (i, j)))

/-- The ordered document pairs the aggregation loop visits: each document
against every later one. -/
def textPairs {T : Type} (texts : List T) : List (T × T) :=
  match texts with
  | [] => []
  | d :: rest => (rest.map (fun d' => (d, d'))) ++ textPairs rest

/-- Element `i` of a batch of `(name, text)` documents, defaulting to the empty
document. -/
def nthDoc (texts : List (List Char × List Char)) (i : Nat) : List Char × List Char :=
  texts.getD i ([], [])

/-- No sentence-terminal punctuation mark directly followed by whitespace
occurs in the text (so the split pattern never matches). -/
def noSentBreak : List Char → Bool
  | [] => true
  | [_] => true
  | a :: b :: rest => !(isTerm a && pyIsSpace b) && noSentBreak (b :: rest)

/-- An adjudicator that always answers, as a fallible one. -/
def pureAdj (adjF : List Char → List Char → List Char) :
    List Char → List Char → Except Unit (List Char) :=
  fun a b => .ok (adjF a b)

/-- A token consisting of one or more digits, optionally followed by a single
`%`. -/
def NumTokenShape (tok : List Char) : Prop :=
  ∃ ds : List Char, ds ≠ [] ∧ (∀ c ∈ ds, c.isDigit = true) ∧
    (tok = ds ∨ tok = ds ++ ['%'])

/-- Digit-run states carry a nonempty reversed list of digits. -/
def NumScanInv : NumScan → Prop
  | .outside _ => True
  | .run ds => ds ≠ [] ∧ ∀ c ∈ ds, c.isDigit = true
  | .afterPct ds => ds ≠ [] ∧ ∀ c ∈ ds, c.isDigit = true

/-! Concrete documents and adjudicators used to instantiate the theorems. -/

/-- A two-sentence document that yields two candidate pairs against
`docTextB` (both share a numeric token with it). -/
def docTextA : List Char := chars "Fee is 10 now. Cap is 20 now."

/-- A one-sentence document sharing the numeric tokens `10` and `20` with
`docTextA`. -/
def docTextB : List Char := chars "Fee was 10 before and cap was 20 before."

/-- A batch of three documents. -/
def texts3 : List (List Char × List Char) :=
  [(chars "x", docTextA), (chars "y", docTextB), (chars "z", chars "No numbers here.")]

/-- An adjudicator that always reports a contradiction. -/
def adjAlwaysContr : List Char → List Char → Except Unit (List Char) :=
  fun _ _ => .ok contrWord

/-- A fault-injected adjudicator: errors exactly on the second candidate pair
of `docTextA` against `docTextB`, answers `"contradiction"` otherwise. -/
def adjFailSecond : List Char → List Char → Except Unit (List Char) :=
  fun sa _ => if sa = chars "Cap is 20 now." then .error () else .ok contrWord

/-- The record produced for the first candidate pair of `docTextA` vs
`docTextB` under an always-contradiction adjudicator. -/
def recA : ConflictRecord :=
  mkRecord (chars "a") (chars "Fee is 10 now.") (chars "b") docTextB contrWord

/-- The record produced for the second candidate pair of `docTextA` vs
`docTextB` under an always-contradiction adjudicator. -/
def recB : ConflictRecord :=
  mkRecord (chars "a") (chars "Cap is 20 now.") (chars "b") docTextB contrWord

/-! Generic list facts used below. -/

theorem infix_of_pre {α : Type} {l₁ l₂ : List α} (h : l₁ <+: l₂) : l₁ <:+: l₂ := by
  obtain ⟨t, rfl⟩ := h
  exact ⟨[], t, rfl⟩

theorem infix_of_suf {α : Type} {l₁ l₂ : List α} (h : l₁ <:+ l₂) : l₁ <:+: l₂ := by
  obtain ⟨s, rfl⟩ := h
  exact ⟨s, [], by simp⟩

theorem infix_cons_lift {α : Type} {l₁ l₂ : List α} (c : α) (h : l₁ <:+: l₂) :
    l₁ <:+: c :: l₂ := by
  obtain ⟨s, t, rfl⟩ := h
  exact ⟨c :: s, t, rfl⟩

theorem take_pre {α : Type} (n : Nat) (l : List α) : l.take n <+: l :=
  ⟨l.drop n, l.take_append_drop n⟩

/-! Facts about the sentence splitter. -/

theorem splitSentences_cons_shape (l : List Char) :
    ∀ m, ∃ h t, splitSentences m l = h :: t := by
  induction l with
  | nil => intro m; exact ⟨[], [], rfl⟩
  | cons c rest ih =>
    intro m
    have hnorm : ∃ h t, (splitSentences (.norm (isTerm c)) rest).modifyHead (c :: ·) = h :: t := by
      obtain ⟨h, t, heq⟩ := ih (.norm (isTerm c))
      exact ⟨c :: h, t, by rw [heq]; rfl⟩
    cases m with
    | sep =>
      by_cases hs : pyIsSpace c
      · simpa [splitSentences, hs] using ih .sep
      · simpa [splitSentences, hs] using hnorm
    | norm pp =>
      by_cases hs : pyIsSpace c && pp
      · exact ⟨[], splitSentences .sep rest, by simp [splitSentences, hs]⟩
      · simpa [splitSentences, hs] using hnorm

theorem splitSentences_head_pre (l : List Char) :
    ∀ pp h t, splitSentences (.norm pp) l = h :: t → h <+: l := by
  induction l with
  | nil =>
    intro pp h t heq
    cases heq
    exact ⟨[], rfl⟩
  | cons c rest ih =>
    intro pp h t heq
    by_cases hs : pyIsSpace c && pp
    · rw [splitSentences, if_pos hs] at heq
      cases heq
      exact ⟨c :: rest, rfl⟩
    · rw [splitSentences, if_neg hs] at heq
      obtain ⟨h', t', heq'⟩ := splitSentences_cons_shape rest (.norm (isTerm c))
      rw [heq', List.modifyHead_cons] at heq
      injection heq with heq1 heq2
      obtain ⟨u, hu⟩ := ih (isTerm c) h' t' heq'
      exact ⟨u, by simp [← heq1, ← hu]⟩

theorem splitSentences_infix_of_mem (l : List Char) :
    ∀ m, ∀ x ∈ splitSentences m l, x <:+: l := by
  induction l with
  | nil =>
    intro m x hx
    simp only [splitSentences, List.mem_singleton] at hx
    exact hx ▸ List.infix_refl []
  | cons c rest ih =>
    intro m x hx
    have hnorm : ∀ x ∈ (splitSentences (.norm (isTerm c)) rest).modifyHead (c :: ·),
        x <:+: c :: rest := by
      intro y hy
      obtain ⟨h', t', heq'⟩ := splitSentences_cons_shape rest (.norm (isTerm c))
      rw [heq', List.modifyHead_cons] at hy
      rcases List.mem_cons.mp hy with hy | hy
      · obtain ⟨u, hu⟩ := splitSentences_head_pre rest (isTerm c) h' t' heq'
        exact hy ▸ infix_of_pre ⟨u, by simp [← hu]⟩
      · exact infix_cons_lift c (ih (.norm (isTerm c)) y (heq' ▸ List.mem_cons_of_mem h' hy))
    cases m with
    | sep =>
      by_cases hs : pyIsSpace c
      · rw [splitSentences, if_pos hs] at hx
        exact infix_cons_lift c (ih .sep x hx)
      · rw [splitSentences, if_neg hs] at hx
        exact hnorm x hx
    | norm pp =>
      by_cases hs : pyIsSpace c && pp
      · rw [splitSentences, if_pos hs] at hx
        rcases List.mem_cons.mp hx with hx | hx
        · exact hx ▸ ⟨[], c :: rest, rfl⟩
        · exact infix_cons_lift c (ih .sep x hx)
      · rw [splitSentences, if_neg hs] at hx
        exact hnorm x hx

theorem pyStrip_infix_self (l : List Char) : pyStrip l <:+: l := by
  have h1 : l.dropWhile pyIsSpace <:+ l := List.dropWhile_suffix pyIsSpace
  have h2 : pyStrip l <+: l.dropWhile pyIsSpace := by
    obtain ⟨s, hs⟩ := List.dropWhile_suffix (l := (l.dropWhile pyIsSpace).reverse) pyIsSpace
    refine ⟨s.reverse, ?_⟩
    have hrev := congrArg List.reverse hs
    simpa [pyStrip] using hrev
  exact (infix_of_pre h2).trans (infix_of_suf h1)

theorem filter_nonspace_dropWhile (l : List Char) :
    (l.dropWhile pyIsSpace).filter (fun c => !pyIsSpace c) = l.filter (fun c => !pyIsSpace c) := by
  induction l with
  | nil => rfl
  | cons c rest ih =>
    by_cases hs : pyIsSpace c
    · simpa [List.dropWhile_cons, hs] using ih
    · simp [List.dropWhile_cons, hs]

theorem splitSentences_flatten_filter (l : List Char) :
    ∀ m, (splitSentences m l).flatten.filter (fun c => !pyIsSpace c) =
      l.filter (fun c => !pyIsSpace c) := by
  induction l with
  | nil => intro m; rfl
  | cons c rest ih =>
    intro m
    have hnorm : ((splitSentences (.norm (isTerm c)) rest).modifyHead
        (c :: ·)).flatten.filter (fun c => !pyIsSpace c) =
        (c :: rest).filter (fun c => !pyIsSpace c) := by
      obtain ⟨h', t', heq'⟩ := splitSentences_cons_shape rest (.norm (isTerm c))
      have hfl : ((splitSentences (.norm (isTerm c)) rest).modifyHead (c :: ·)).flatten =
          c :: (splitSentences (.norm (isTerm c)) rest).flatten := by
        rw [heq', List.modifyHead_cons]
        simp
      rw [hfl]
      by_cases hs : pyIsSpace c
      · simpa [List.filter_cons, hs] using ih (.norm (isTerm c))
      · simpa [List.filter_cons, hs] using ih (.norm (isTerm c))
    cases m with
    | sep =>
      by_cases hs : pyIsSpace c
      · rw [splitSentences, if_pos hs]
        simpa [List.filter_cons, hs] using ih .sep
      · rw [splitSentences, if_neg hs]
        exact hnorm
    | norm pp =>
      by_cases hs : pyIsSpace c && pp
      · rw [splitSentences, if_pos hs]
        have hc : pyIsSpace c = true := (Bool.and_eq_true _ _).mp hs |>.1
        simpa [List.filter_cons, hc] using ih .sep
      · rw [splitSentences, if_neg hs]
        exact hnorm

theorem noSentBreak_tail {c : Char} {l : List Char} (h : noSentBreak (c :: l) = true) :
    noSentBreak l = true := by
  cases l with
  | nil => rfl
  | cons b rest => exact ((Bool.and_eq_true _ _).mp h).2

theorem noSentBreak_head {a b : Char} {l : List Char}
    (h : noSentBreak (a :: b :: l) = true) : (isTerm a && pyIsSpace b) = false := by
  have hh := ((Bool.and_eq_true _ _).mp h).1
  cases h9 : (isTerm a && pyIsSpace b) with
  | false => rfl
  | true => rw [h9] at hh; exact absurd hh (by simp)

theorem splitSentences_single (l : List Char) :
    ∀ pp, noSentBreak l = true →
      (∀ c l', l = c :: l' → pp = true → pyIsSpace c = false) →
      splitSentences (.norm pp) l = [l] := by
  induction l with
  | nil => intro pp _ _; rfl
  | cons c rest ih =>
    intro pp hnb hhead
    have hcond : (pyIsSpace c && pp) = false := by
      cases hpp : pp with
      | false => simp
      | true => simp [hhead c rest rfl hpp]
    rw [splitSentences, if_neg (by simp [hcond])]
    have hrest : splitSentences (.norm (isTerm c)) rest = [rest] := by
      refine ih (isTerm c) (noSentBreak_tail hnb) ?_
      intro b l' hl' hterm
      subst hl'
      have := noSentBreak_head hnb
      rw [hterm] at this
      simpa using this
    rw [hrest, List.modifyHead_cons]

theorem noSentBreak_append_left :
    ∀ (l l' : List Char), noSentBreak (l ++ l') = true → noSentBreak l = true
  | [], _, _ => rfl
  | [_], _, _ => rfl
  | a :: b :: rest, l', h => by
    have h' : noSentBreak (a :: b :: (rest ++ l')) = true := by simpa using h
    have h1 := noSentBreak_head h'
    have h2 := noSentBreak_append_left (b :: rest) l' (noSentBreak_tail h')
    show (!(isTerm a && pyIsSpace b) && noSentBreak (b :: rest)) = true
    simp [h1, h2]

theorem noSentBreak_suffix {l l' : List Char} (h : l <:+ l')
    (hnb : noSentBreak l' = true) : noSentBreak l = true := by
  obtain ⟨s, rfl⟩ := h
  induction s with
  | nil => exact hnb
  | cons a s ih => exact ih (noSentBreak_tail hnb)

theorem noSentBreak_infix_closed {l l' : List Char} (h : l <:+: l')
    (hnb : noSentBreak l' = true) : noSentBreak l = true := by
  obtain ⟨s, t, rfl⟩ := h
  exact noSentBreak_append_left l t
    (noSentBreak_suffix ⟨s, by simp⟩ hnb)

/-! Facts about the candidate pair filter. -/

theorem pairsRow_eq_filter_map (sa : List Char) (B : List (List Char)) :
    pairsRow sa B = (B.filter (fun sb => pairCond sa sb)).map (fun sb => (sa, sb)) := by
  induction B with
  | nil => rfl
  | cons sb B' ih =>
    by_cases hc : pairCond sa sb
    · simp [pairsRow, List.filter_cons, hc, ih]
    · simp [pairsRow, List.filter_cons, hc, ih]

theorem allCandidatePairs_eq_flatMap (A B : List (List Char)) :
    allCandidatePairs A B =
      A.flatMap (fun sa => (B.filter (fun sb => pairCond sa sb)).map (fun sb => (sa, sb))) := by
  induction A with
  | nil => rfl
  | cons sa A' ih => simp [allCandidatePairs, pairsRow_eq_filter_map, ih]

theorem mem_allCandidatePairs {A B : List (List Char)} {sa sb : List Char} :
    (sa, sb) ∈ allCandidatePairs A B ↔ sa ∈ A ∧ sb ∈ B ∧ pairCond sa sb = true := by
  rw [allCandidatePairs_eq_flatMap]
  simp only [List.mem_flatMap, List.mem_map, List.mem_filter]
  constructor
  · rintro ⟨x, hx, y, ⟨hy, hcond⟩, heq⟩
    obtain ⟨rfl, rfl⟩ := Prod.mk.injEq .. ▸ And.intro (congrArg Prod.fst heq) (congrArg Prod.snd heq)
    exact ⟨hx, hy, hcond⟩
  · rintro ⟨ha, hb, hcond⟩
    exact ⟨sa, ha, sb, ⟨hb, hcond⟩, rfl⟩

theorem mem_heuristic_pairs_mem {A B : List (List Char)} {p : List Char × List Char}
    (h : p ∈ heuristic_pairs A B) : p.1 ∈ A ∧ p.2 ∈ B := by
  have hmem : p ∈ allCandidatePairs A B := by
    obtain ⟨u, hu⟩ := take_pre 50 (allCandidatePairs A B)
    rw [heuristic_pairs] at h
    rw [← hu]
    exact List.mem_append_left u h
  obtain ⟨p1, p2⟩ := p
  have := mem_allCandidatePairs.mp hmem
  exact ⟨this.1, this.2.1⟩

/-! Shape of the tokens the numeric-token scan returns. -/

theorem findNumsGo_shape (l : List Char) :
    ∀ m, NumScanInv m → ∀ tok ∈ findNumsGo m l, NumTokenShape tok := by
  induction l with
  | nil =>
    intro m hm tok htok
    cases m with
    | outside pw => simp [findNumsGo] at htok
    | run ds =>
      simp only [findNumsGo, List.mem_singleton] at htok
      exact ⟨ds.reverse, by simpa using hm.1, by simpa using hm.2, Or.inl htok⟩
    | afterPct ds =>
      simp only [findNumsGo, List.mem_singleton] at htok
      exact ⟨ds.reverse, by simpa using hm.1, by simpa using hm.2, Or.inl htok⟩
  | cons c rest ih =>
    intro m hm tok htok
    cases m with
    | outside pw =>
      rw [findNumsGo] at htok
      by_cases hd : c.isDigit && !pw
      · rw [if_pos hd] at htok
        refine ih (.run [c]) ⟨by simp, ?_⟩ tok htok
        intro x hx
        rw [List.mem_singleton] at hx
        subst hx
        exact ((Bool.and_eq_true _ _).mp hd).1
      · rw [if_neg hd] at htok
        exact ih (.outside (isWordChar c)) trivial tok htok
    | run ds =>
      rw [findNumsGo] at htok
      by_cases hd : c.isDigit
      · rw [if_pos hd] at htok
        refine ih (.run (c :: ds)) ⟨by simp, ?_⟩ tok htok
        intro x hx
        rcases List.mem_cons.mp hx with rfl | hx
        · exact hd
        · exact hm.2 x hx
      · rw [if_neg hd] at htok
        by_cases hp : c = '%'
        · rw [if_pos hp] at htok
          exact ih (.afterPct ds) hm tok htok
        · rw [if_neg hp] at htok
          by_cases hw : isWordChar c
          · rw [if_pos hw] at htok
            exact ih (.outside true) trivial tok htok
          · rw [if_neg hw] at htok
            rcases List.mem_cons.mp htok with rfl | htok
            · exact ⟨ds.reverse, by simpa using hm.1, by simpa using hm.2, Or.inl rfl⟩
            · exact ih (.outside false) trivial tok htok
    | afterPct ds =>
      rw [findNumsGo] at htok
      by_cases hd : c.isDigit
      · rw [if_pos hd] at htok
        rcases List.mem_cons.mp htok with rfl | htok
        · exact ⟨ds.reverse, by simpa using hm.1, by simpa using hm.2, Or.inr rfl⟩
        · refine ih (.run [c]) ⟨by simp, ?_⟩ tok htok
          intro x hx
          rw [List.mem_singleton] at hx
          subst hx
          exact hd
      · rw [if_neg hd] at htok
        by_cases hw : isWordChar c
        · rw [if_pos hw] at htok
          rcases List.mem_cons.mp htok with rfl | htok
          · exact ⟨ds.reverse, by simpa using hm.1, by simpa using hm.2, Or.inr rfl⟩
          · exact ih (.outside true) trivial tok htok
        · rw [if_neg hw] at htok
          rcases List.mem_cons.mp htok with rfl | htok
          · exact ⟨ds.reverse, by simpa using hm.1, by simpa using hm.2, Or.inl rfl⟩
          · exact ih (.outside false) trivial tok htok

theorem findNums_shape {s tok : List Char} (h : tok ∈ findNums s) : NumTokenShape tok :=
  findNumsGo_shape s (.outside false) trivial tok h

/-! The word-overlap count as a finite set cardinality. -/

theorem dedup_filter_length_eq_inter_card (u v : List (List Char)) :
    (u.dedup.filter (fun w => decide (w ∈ v))).length =
      (u.toFinset ∩ v.toFinset).card := by
  have hnd : (u.dedup.filter (fun w => decide (w ∈ v))).Nodup :=
    List.Nodup.filter _ (List.nodup_dedup u)
  have hfs : (u.dedup.filter (fun w => decide (w ∈ v))).toFinset =
      u.toFinset ∩ v.toFinset := by
    ext x
    simp [List.mem_toFinset, List.mem_filter, List.mem_dedup, Finset.mem_inter]
  rw [← List.toFinset_card_of_nodup hnd, hfs]

theorem sharedWordCount_eq_card (sa sb : List Char) :
    sharedWordCount sa sb =
      ((pyWords (lowerChars sa)).toFinset ∩ (pyWords (lowerChars sb)).toFinset).card :=
  dedup_filter_length_eq_inter_card _ _

theorem pairCond_iff (sa sb : List Char) :
    pairCond sa sb = true ↔
      (∃ tok ∈ findNums sa, tok <:+: sb) ∨
        3 < ((pyWords (lowerChars sa)).toFinset ∩ (pyWords (lowerChars sb)).toFinset).card := by
  rw [pairCond, Bool.or_eq_true, ← sharedWordCount_eq_card]
  simp [numTokenMatch, List.any_eq_true]

/-! Facts about the verdict test and the adjudication loop. -/

theorem hasContradiction_iff (out : List Char) :
    hasContradiction out = true ↔ contrWord <:+: lowerChars out := by
  rw [hasContradiction, Bool.or_eq_true, decide_eq_true_iff, decide_eq_true_iff]
  constructor
  · rintro (hq | hl)
    · have hmap := List.IsInfix.map Char.toLower hq
      have hself : List.map Char.toLower ('"' :: contrWord ++ ['"']) =
          '"' :: contrWord ++ ['"'] := by decide
      rw [hself] at hmap
      have hsub : contrWord <:+: '"' :: contrWord ++ ['"'] := ⟨['"'], ['"'], rfl⟩
      exact hsub.trans hmap
    · exact hl
  · intro hl
    exact Or.inr hl

theorem adjudicateLoop_pure {adjF : List Char → List Char → List Char}
    (na nb : List Char) (ps : List (List Char × List Char)) :
    adjudicateLoop (ε := Unit) (fun a b => .ok (adjF a b)) na nb ps =
      .ok (ps.filterMap (fun p => if hasContradiction (adjF p.1 p.2) then
        some (mkRecord na p.1 nb p.2 (adjF p.1 p.2)) else none)) := by
  induction ps with
  | nil => rfl
  | cons p rest ih =>
    obtain ⟨sa, sb⟩ := p
    rw [adjudicateLoop, ih]
    by_cases hc : hasContradiction (adjF sa sb)
    · simp [List.filterMap_cons, hc]
    · simp [List.filterMap_cons, hc]

theorem adjudicateLoop_ok_mem {ε : Type} {adj : List Char → List Char → Except ε (List Char)}
    {na nb : List Char} :
    ∀ {ps : List (List Char × List Char)} {rs : List ConflictRecord},
      adjudicateLoop adj na nb ps = .ok rs → ∀ r ∈ rs,
        ∃ p ∈ ps, ∃ out, r = mkRecord na p.1 nb p.2 out := by
  intro ps
  induction ps with
  | nil =>
    intro rs heq r hr
    rw [adjudicateLoop] at heq
    cases heq
    cases hr
  | cons p rest ih =>
    obtain ⟨sa, sb⟩ := p
    intro rs heq r hr
    rw [adjudicateLoop] at heq
    cases hadj : adj sa sb with
    | error e => rw [hadj] at heq; cases heq
    | ok out =>
      rw [hadj] at heq
      cases hrec : adjudicateLoop adj na nb rest with
      | error e => rw [hrec] at heq; cases heq
      | ok cs =>
        rw [hrec] at heq
        cases heq
        by_cases hc : hasContradiction out
        · rw [if_pos hc] at hr
          rcases List.mem_cons.mp hr with rfl | hr
          · exact ⟨(sa, sb), List.mem_cons_self _ _, out, rfl⟩
          · obtain ⟨q, hq, o, ho⟩ := ih hrec r hr
            exact ⟨q, List.mem_cons_of_mem _ hq, o, ho⟩
        · rw [if_neg hc] at hr
          obtain ⟨q, hq, o, ho⟩ := ih hrec r hr
          exact ⟨q, List.mem_cons_of_mem _ hq, o, ho⟩

theorem adjudicateLoop_error_of_mem {ε : Type}
    {adj : List Char → List Char → Except ε (List Char)} {na nb : List Char} :
    ∀ {ps : List (List Char × List Char)} {e : ε},
      (∃ p ∈ ps, adj p.1 p.2 = .error e) →
        ∃ e', adjudicateLoop adj na nb ps = .error e' := by
  intro ps
  induction ps with
  | nil =>
    intro e h
    obtain ⟨p, hp, _⟩ := h
    cases hp
  | cons q rest ih =>
    obtain ⟨sa, sb⟩ := q
    intro e h
    cases hadj : adj sa sb with
    | error e'' => exact ⟨e'', by rw [adjudicateLoop, hadj]⟩
    | ok out =>
      obtain ⟨p, hp, herr⟩ := h
      rcases List.mem_cons.mp hp with rfl | hp
      · rw [hadj] at herr; cases herr
      · obtain ⟨e', he'⟩ := ih ⟨p, hp, herr⟩
        exact ⟨e', by rw [adjudicateLoop, hadj, he']⟩

/-! Facts about the aggregation loops of `/analyze`. -/

theorem detect_conflicts_pure (adjF : List Char → List Char → List Char)
    (na ta nb tb : List Char) :
    detect_conflicts (pureAdj adjF) na ta nb tb = .ok (pureDetect adjF na ta nb tb) :=
  adjudicateLoop_pure na nb _

theorem innerPairLoop_pure (adjF : List Char → List Char → List Char)
    (na ta : List Char) (texts : List (List Char × List Char)) :
    innerPairLoop (pureAdj adjF) na ta texts =
      .ok (texts.flatMap (fun q => pureDetect adjF na ta q.1 q.2)) := by
  induction texts with
  | nil => rfl
  | cons q rest ih =>
    obtain ⟨nb, tb⟩ := q
    rw [innerPairLoop, detect_conflicts_pure, ih, List.flatMap_cons]

theorem outerPairLoop_pure (adjF : List Char → List Char → List Char)
    (texts : List (List Char × List Char)) :
    outerPairLoop (pureAdj adjF) texts =
      .ok ((textPairs texts).flatMap (fun q => pureDetect adjF q.1.1 q.1.2 q.2.1 q.2.2)) := by
  induction texts with
  | nil => rfl
  | cons d rest ih =>
    obtain ⟨na, ta⟩ := d
    rw [outerPairLoop, innerPairLoop_pure, ih, textPairs, List.flatMap_append,
      List.flatMap_map]

theorem docPairs_succ (n : Nat) :
    docPairs (n + 1) = (List.range n).map (fun j => (0, j + 1)) ++
      (docPairs n).map (fun p => (p.1 + 1, p.2 + 1)) := by
  rw [docPairs, docPairs, List.range_succ_eq_map, List.flatMap_cons]
  congr 1
  · rw [List.filter_cons]
    have h0 : (decide ((0 : Nat) < 0)) = false := by decide
    rw [h0]
    simp only [Bool.false_eq_true, if_false, List.filter_map]
    have hall : (List.range n).filter ((fun j => decide (0 < j)) ∘ Nat.succ) = List.range n := by
      apply List.filter_eq_self.mpr
      intro j _
      simp [Function.comp]
    rw [hall, List.map_map]
    rfl
  · rw [List.flatMap_map, List.map_flatMap]
    apply List.flatMap_congr
    intro i _
    rw [List.filter_cons]
    have h0 : (decide (Nat.succ i < 0)) = false := by simp
    rw [h0]
    simp only [Bool.false_eq_true, if_false, List.filter_map]
    have hfc : (List.range n).filter ((fun j => decide (Nat.succ i < j)) ∘ Nat.succ) =
        (List.range n).filter (fun j => decide (i < j)) := by
      apply List.filter_congr
      intro j _
      simp [Function.comp, Nat.succ_lt_succ_iff]
    rw [hfc, List.map_map, List.map_map]
    rfl

theorem map_eq_range_map {α β : Type} (dflt : α) (g : α → β) :
    ∀ xs : List α, xs.map g = (List.range xs.length).map (fun j => g (xs.getD j dflt))
  | [] => rfl
  | x :: xs => by
    rw [List.map_cons, List.length_cons, List.range_succ_eq_map, List.map_cons,
      List.map_map, map_eq_range_map dflt g xs]
    congr 1

theorem textPairs_eq_docPairs (xs : List (List Char × List Char)) :
    textPairs xs = (docPairs xs.length).map (fun p => (nthDoc xs p.1, nthDoc xs p.2)) := by
  induction xs with
  | nil => rfl
  | cons d rest ih =>
    rw [textPairs, List.length_cons, docPairs_succ, List.map_append, ih]
    congr 1
    · rw [map_eq_range_map ([], []) (fun d' => (d, d')) rest, List.map_map]
      apply List.map_congr_left
      intro j _
      simp [Function.comp, nthDoc, List.getD_cons_succ, List.getD_cons_zero]
    · rw [List.map_map]
      apply List.map_congr_left
      intro p _
      simp [Function.comp, nthDoc, List.getD_cons_succ]

theorem extract_sentences_infix_of_mem {s t : List Char}
    (h : s ∈ extract_sentences t) : s <:+: t :=
  (splitSentences_infix_of_mem (pyStrip t) (.norm false) s h).trans (pyStrip_infix_self t)

/-! The claims. -/

/-- C1: every `ConflictRecord` produced by the conflict-detection pipeline has
`span_a` equal to a sentence of the segmentation of `doc_a`, occurring
verbatim as a contiguous substring of the text of `doc_a`, and likewise
`span_b` for `doc_b`. -/
theorem C1_conflict_spans_verbatim {ε : Type}
    (adj : List Char → List Char → Except ε (List Char)) (na ta nb tb : List Char)
    (rs : List ConflictRecord) (hok : detect_conflicts adj na ta nb tb = .ok rs) :
    ∀ r ∈ rs, (r.span_a ∈ extract_sentences ta ∧ r.span_a <:+: ta) ∧
      (r.span_b ∈ extract_sentences tb ∧ r.span_b <:+: tb) := by
  intro r hr
  obtain ⟨p, hp, out, rfl⟩ := adjudicateLoop_ok_mem hok r hr
  have hmem := mem_heuristic_pairs_mem hp
  have hs1 : p.1 ∈ extract_sentences ta := hmem.1
  have hs2 : p.2 ∈ extract_sentences tb := hmem.2
  exact ⟨⟨hs1, extract_sentences_infix_of_mem hs1⟩, ⟨hs2, extract_sentences_infix_of_mem hs2⟩⟩

/-- Witness for C1 at a concrete batch: the pipeline produces two records
whose spans are sentences of the two documents. -/
theorem C1_conflict_spans_verbatim_witness :
    detect_conflicts adjAlwaysContr (chars "a") docTextA (chars "b") docTextB =
      .ok [recA, recB] ∧
    ((recA.span_a ∈ extract_sentences docTextA ∧ recA.span_a <:+: docTextA) ∧
      (recA.span_b ∈ extract_sentences docTextB ∧ recA.span_b <:+: docTextB)) :=
  ⟨by rfl,
    C1_conflict_spans_verbatim adjAlwaysContr (chars "a") docTextA (chars "b") docTextB
      [recA, recB] (by rfl) recA (List.mem_cons_self recA [recB])⟩

/-- C2: the candidate pair filter returns at most 50 pairs; it equals the
nested-order match list (each `sa` against every `sb`, in input order)
truncated to its first 50 elements, hence keeps exactly the first 50 matches
and drops the rest. -/
theorem C2_filter_capped_at_50 (A B : List (List Char)) :
    (heuristic_pairs A B).length ≤ 50 ∧
    heuristic_pairs A B =
      (A.flatMap (fun sa => (B.filter (fun sb => pairCond sa sb)).map
        (fun sb => (sa, sb)))).take 50 ∧
    heuristic_pairs A B <+: allCandidatePairs A B :=
  ⟨List.length_take_le 50 (allCandidatePairs A B),
    by rw [heuristic_pairs, allCandidatePairs_eq_flatMap],
    take_pre 50 (allCandidatePairs A B)⟩

/-- C3: a pair `(sa, sb)` is retained by the (uncapped) filter iff some
standalone numeric token of `sa` (digits, optionally followed by `%`) occurs
as a literal substring of `sb`, or the two sentences share more than 3 words
after lowercasing and whitespace-splitting; every extracted token indeed is
digits optionally followed by `%`; and the two example pairs from the spec
behave as stated. -/
theorem C3_retention_condition :
    (∀ A B sa sb, (sa, sb) ∈ allCandidatePairs A B ↔
      sa ∈ A ∧ sb ∈ B ∧
        ((∃ tok ∈ findNums sa, tok <:+: sb) ∨
          3 < ((pyWords (lowerChars sa)).toFinset ∩
            (pyWords (lowerChars sb)).toFinset).card)) ∧
    (∀ s tok, tok ∈ findNums s → NumTokenShape tok) ∧
    heuristic_pairs [chars "Fees are 10%"] [chars "The fee is set at 10% annually"] =
      [(chars "Fees are 10%", chars "The fee is set at 10% annually")] ∧
    heuristic_pairs [chars "The sky is blue."] [chars "Bananas are yellow fruit."] = [] := by
  refine ⟨?_, fun s tok h => findNums_shape h, by rfl, by rfl⟩
  intro A B sa sb
  rw [mem_allCandidatePairs, pairCond_iff]

/-- Witness for C3 at a concrete token: `"10"` is extracted from
`"Fees are 10%"` and has the numeric-token shape. -/
theorem C3_retention_condition_witness :
    chars "10" ∈ findNums (chars "Fees are 10%") ∧ NumTokenShape (chars "10") :=
  ⟨by decide, C3_retention_condition.2.1 (chars "Fees are 10%") (chars "10") (by decide)⟩

/-- C4: a candidate pair produces a `ConflictRecord` iff the literal substring
`contradiction` appears case-insensitively anywhere in the raw adjudicator
response (no other validation), and every record produced carries
`type = "contradiction"`. -/
theorem C4_verdict_substring_check :
    (∀ out, hasContradiction out = true ↔ contrWord <:+: lowerChars out) ∧
    (∀ adjF na ta nb tb, detect_conflicts (pureAdj adjF) na ta nb tb =
      .ok (pureDetect adjF na ta nb tb)) ∧
    (∀ adjF na ta nb tb r, r ∈ pureDetect adjF na ta nb tb → r.type = contrWord) := by
  refine ⟨hasContradiction_iff, detect_conflicts_pure, ?_⟩
  intro adjF na ta nb tb r hr
  obtain ⟨p, _, hsome⟩ := List.mem_filterMap.mp hr
  by_cases hc : hasContradiction (adjF p.1 p.2)
  · rw [if_pos hc] at hsome
    cases hsome
    rfl
  · rw [if_neg hc] at hsome
    cases hsome

/-- Witness for C4 at a concrete record: the record produced for the first
candidate pair has `type = "contradiction"`. -/
theorem C4_verdict_substring_check_witness :
    recA ∈ pureDetect (fun _ _ => contrWord) (chars "a") docTextA (chars "b") docTextB ∧
    recA.type = contrWord :=
  ⟨by decide,
    C4_verdict_substring_check.2.2 (fun _ _ => contrWord) (chars "a") docTextA
      (chars "b") docTextB recA (by decide)⟩

/-- C5 counterexample: with an adjudicator failing only on the second of two
candidate pairs, `detect_conflicts` returns the error — not the record that
the successful first pair would produce (as the always-answering run shows,
both pairs yield contradiction records). -/
theorem C5_counterexample_error_aborts_batch :
    detect_conflicts adjFailSecond (chars "a") docTextA (chars "b") docTextB =
      .error () ∧
    adjFailSecond (chars "Fee is 10 now.") docTextB = .ok contrWord ∧
    detect_conflicts adjAlwaysContr (chars "a") docTextA (chars "b") docTextB =
      .ok [recA, recB] :=
  ⟨by rfl, by rfl, by rfl⟩

/-- C5 (amended): if the external adjudication call fails for some candidate
pair, the exception propagates — `detect_conflicts` returns an error and no
conflict records, and `analyze` turns a loop error into a failed response. -/
theorem C5_amended_error_propagates :
    (∀ {ε : Type} (adj : List Char → List Char → Except ε (List Char))
      (na ta nb tb : List Char) (e : ε),
      (∃ p ∈ heuristic_pairs (extract_sentences ta) (extract_sentences tb),
        adj p.1 p.2 = .error e) →
      ∃ e', detect_conflicts adj na ta nb tb = .error e') ∧
    (∀ {ε : Type} (adj : List Char → List Char → Except ε (List Char))
      (texts : List (List Char × List Char)) (e : ε), 2 ≤ texts.length →
      outerPairLoop adj texts = .error e →
      analyze adj texts = .error (.adjFailure e)) := by
  constructor
  · intro ε adj na ta nb tb e h
    exact adjudicateLoop_error_of_mem h
  · intro ε adj texts e hlen hloop
    rw [analyze, if_neg (by omega), hloop]

/-- Witness for the amended C5 at the fault-injected adjudicator: the failing
second pair makes the whole detection return an error. -/
theorem C5_amended_error_propagates_witness :
    ∃ e', detect_conflicts adjFailSecond (chars "a") docTextA (chars "b") docTextB =
      .error e' :=
  C5_amended_error_propagates.1 adjFailSecond (chars "a") docTextA (chars "b") docTextB ()
    ⟨(chars "Cap is 20 now.", docTextB), by decide, by rfl⟩

/-- C6: `analyze` rejects a batch with the precondition error exactly when it
holds fewer than 2 documents (the guard runs before any detection; with 2 or
more documents that error is never returned). -/
theorem C6_requires_two_documents {ε : Type}
    (adj : List Char → List Char → Except ε (List Char))
    (texts : List (List Char × List Char)) :
    analyze adj texts = .error .tooFewDocs ↔ texts.length < 2 := by
  by_cases h : texts.length < 2
  · simp [analyze, h]
  · rw [analyze, if_neg h]
    constructor
    · intro hc
      cases ho : outerPairLoop adj texts with
      | error e =>
        rw [ho] at hc
        injection hc with hc'
        cases hc'
      | ok cs =>
        rw [ho] at hc
        cases hc
    · intro hc
      exact absurd hc h

/-- C7: on a batch of `n` documents, the analysis visits exactly the index
pairs `(i, j)` with `i < j` in lexicographic order — for three documents
`(0,1), (0,2), (1,2)` — and returns the concatenation of the conflict records
of each pair in that evaluation order. -/
theorem C7_pairwise_lex_order :
    (∀ (adjF : List Char → List Char → List Char)
      (texts : List (List Char × List Char)), 2 ≤ texts.length →
      analyze (pureAdj adjF) texts =
        .ok ((docPairs texts.length).flatMap
          (fun p => pureDetect adjF (nthDoc texts p.1).1 (nthDoc texts p.1).2
            (nthDoc texts p.2).1 (nthDoc texts p.2).2))) ∧
    docPairs 3 = [(0, 1), (0, 2), (1, 2)] := by
  constructor
  · intro adjF texts hlen
    rw [analyze, if_neg (by omega), outerPairLoop_pure, textPairs_eq_docPairs,
      List.flatMap_map]
  · decide

/-- Witness for C7 at a concrete three-document batch and a neutral-answer
adjudicator. -/
theorem C7_pairwise_lex_order_witness :
    analyze (pureAdj (fun _ _ => chars "neutral")) texts3 =
      .ok ((docPairs texts3.length).flatMap
        (fun p => pureDetect (fun _ _ => chars "neutral")
          (nthDoc texts3 p.1).1 (nthDoc texts3 p.1).2
          (nthDoc texts3 p.2).1 (nthDoc texts3 p.2).2)) :=
  C7_pairwise_lex_order.1 (fun _ _ => chars "neutral") texts3 (by decide)

/-- C8: segmentation neither loses, duplicates, nor reorders any
non-whitespace character: dropping whitespace from the concatenated sentences
gives exactly the trimmed input with whitespace dropped. -/
theorem C8_segmentation_preserves_content (t : List Char) :
    ((extract_sentences t).flatten).filter (fun c => !pyIsSpace c) =
      (pyStrip t).filter (fun c => !pyIsSpace c) :=
  splitSentences_flatten_filter (pyStrip t) (.norm false)

/-- C9: a non-empty text with no sentence-terminal punctuation mark followed
by whitespace segments into the single trimmed sentence. -/
theorem C9_single_sentence (t : List Char) (_hne : t ≠ [])
    (hnb : noSentBreak t = true) : extract_sentences t = [pyStrip t] := by
  rw [extract_sentences]
  refine splitSentences_single (pyStrip t) false
    (noSentBreak_infix_closed (pyStrip_infix_self t) hnb) ?_
  intro c l' _ hpp
  cases hpp

/-- Witness for C9 at a concrete unpunctuated text. -/
theorem C9_single_sentence_witness :
    (chars "  hello there world  " ≠ [] ∧
      noSentBreak (chars "  hello there world  ") = true) ∧
    extract_sentences (chars "  hello there world  ") =
      [pyStrip (chars "  hello there world  ")] :=
  ⟨⟨by decide, by decide⟩,
    C9_single_sentence (chars "  hello there world  ") (by decide) (by decide)⟩

/-- C10: the empty text and every all-whitespace text segment to the
one-element sequence holding the empty string, and segmentation never returns
an empty sequence. -/
theorem C10_empty_input :
    extract_sentences [] = [[]] ∧
    (∀ t, (∀ c ∈ t, pyIsSpace c = true) → extract_sentences t = [[]]) ∧
    (∀ t, extract_sentences t ≠ []) := by
  refine ⟨rfl, ?_, ?_⟩
  · intro t hall
    have h1 : t.dropWhile pyIsSpace = [] :=
      List.dropWhile_eq_nil_iff.mpr hall
    have hstrip : pyStrip t = [] := by
      rw [pyStrip, h1]
      rfl
    rw [extract_sentences, hstrip]
    rfl
  · intro t
    obtain ⟨hh, tt, heq⟩ := splitSentences_cons_shape (pyStrip t) (.norm false)
    rw [extract_sentences, heq]
    exact List.cons_ne_nil hh tt

/-- Witness for C10 at a concrete all-whitespace text. -/
theorem C10_empty_input_witness :
    (∀ c ∈ chars " \t\n ", pyIsSpace c = true) ∧
      extract_sentences (chars " \t\n ") = [[]] :=
  ⟨by decide, C10_empty_input.2.1 (chars " \t\n ") (by decide)⟩

end SmartDocChecker
